import Mathlib

/-!
Verification development for a modal-editor command-language engine
(a Vim emulation layer). Source artefacts embedded here:

* `src/src/actions/motion.ts` — movements, find-character motions,
  matching-bracket and quote text objects, the count loop
  (`BaseMovement.execActionWithCount`).
* `src/unnamed/part_000` — the operator file (`BaseOperator`,
  `DeleteOperator`, `YankOperator`, `ChangeOperator`, …).
* `src/src/state/searchState.ts` — `SearchState.getNextSearchMatchRange`.
* `src/src/actions/plugins/easymotion/easymotion.cmd.ts` — the
  marker-selection overlay commands.

Leaf helpers that the repository keeps in modules not included here
(`common/motion/position.ts`, `common/matching/*.ts`, `textEditor.ts`,
`actions/base.ts`) are modelled from the specification; each such
definition carries a doc comment starting `Modelled from the spec:`.
-/

namespace VimSpec

/-- Buffer coordinates: zero-based (line, column), lexicographically
comparable, immutable (spec §3). -/
structure Position where
  line : Nat
  character : Nat
deriving DecidableEq, Repr

/-- Strict lexicographic (line, column) order on positions (spec §3). -/
def Position.lt (p q : Position) : Bool :=
  p.line < q.line || (p.line == q.line && p.character < q.character)

/-- Non-strict lexicographic (line, column) order on positions. -/
def Position.le (p q : Position) : Bool :=
  p.lt q || p == q

/-- The editor modes of the mode state machine (spec §4.3), plus the
plugin modes referenced by the embedded source (`ModeName` in
`mode/mode.ts`). -/
inductive ModeName where
  | Normal
  | Insert
  | Visual
  | VisualLine
  | VisualBlock
  | Replace
  | EasyMotionMode
  | SurroundInputMode
deriving DecidableEq, Repr

/-- Register modes (`register/register.ts`, spec §3). -/
inductive RegisterMode where
  | AscertainFromCurrentMode
  | CharacterWise
  | LineWise
  | BlockWise
deriving DecidableEq, Repr

/-- A document line, as a character list (LF documents; the CRLF case of
the source is noted where it matters). -/
abbrev Line := List Char

/-- The text buffer, as its list of lines (spec §6: the core only sees
the buffer through `getText` / `lineCount` / `lineAt`). -/
abbrev Buffer := List Line

/-- Modelled from the spec: Text Buffer `lineCount()` (spec §6). -/
def lineCount (buffer : Buffer) : Nat := buffer.length

/-- Modelled from the spec: Text Buffer `lineAt(n)` (spec §6); out-of-range
lines read as empty. -/
def lineAt (buffer : Buffer) (n : Nat) : Line := (buffer.get? n).getD []

/-- Length of line `n` of the buffer. -/
def lineLen (buffer : Buffer) (n : Nat) : Nat := (lineAt buffer n).length

/-- Modelled from the spec: `Position.getLineBegin` — column 0 of the
cursor's line. -/
def Position.getLineBegin (p : Position) : Position := ⟨p.line, 0⟩

/-- Modelled from the spec: `Position.getLineEnd` — the position one past
the last character of the cursor's line. -/
def Position.getLineEnd (buffer : Buffer) (p : Position) : Position :=
  ⟨p.line, lineLen buffer p.line⟩

/-- Modelled from the spec: `Position.getPreviousLineBegin` — column 0 of
the line above (identity on line 0). -/
def Position.getPreviousLineBegin (p : Position) : Position :=
  if p.line = 0 then ⟨p.line, 0⟩ else ⟨p.line - 1, 0⟩

/-- Modelled from the spec: `Position.getDownByCount` — move `c` lines
down, clamped to the last line, keeping the column. -/
def Position.getDownByCount (buffer : Buffer) (p : Position) (c : Nat) : Position :=
  ⟨min (lineCount buffer - 1) (p.line + c), p.character⟩

/-- Modelled from the spec: `Position.getDown(desiredColumn)` — one line
down at the desired column (clamped to that line's length); identity on
the last line. -/
def Position.getDown (buffer : Buffer) (p : Position) (desiredColumn : Nat) : Position :=
  if p.line + 1 < lineCount buffer then
    ⟨p.line + 1, min (lineLen buffer (p.line + 1)) desiredColumn⟩
  else p

/-- Modelled from the spec: `Position.getLeft` — one column left; spec §8:
an invalid move (left at column 0) is the identity. -/
def Position.getLeft (p : Position) : Position :=
  if p.character = 0 then p else ⟨p.line, p.character - 1⟩

/-- Column of the last character of line `n` (0 on an empty line). -/
def lastCol (buffer : Buffer) (n : Nat) : Nat := max 1 (lineLen buffer n) - 1

/-- Modelled from the spec: `Position.getRight` — one column right, never
leaving the cursor's line; spec §8: an invalid move (right at the line's
last character) is the identity. -/
def Position.getRight (buffer : Buffer) (p : Position) : Position :=
  if p.character + 1 < max 1 (lineLen buffer p.line) then ⟨p.line, p.character + 1⟩ else p

/-- Modelled from the spec: `Position.getLeftThroughLineBreaks` — one
column left, wrapping across the line break to the end of the previous
line (spec §8); identity at the very start of the document. -/
def Position.getLeftThroughLineBreaks (buffer : Buffer) (p : Position) : Position :=
  if 0 < p.character then ⟨p.line, p.character - 1⟩
  else if 0 < p.line then ⟨p.line - 1, lastCol buffer (p.line - 1)⟩
  else p

/-- Modelled from the spec: `Position.getRightThroughLineBreaks` — one
column right, wrapping across the line break to column 0 of the next line
(spec §8); identity at the very end of the document. (The `includeEol`
flag of the source only matters in Insert mode and is not modelled.) -/
def Position.getRightThroughLineBreaks (buffer : Buffer) (p : Position) : Position :=
  if p.character + 1 < max 1 (lineLen buffer p.line) then ⟨p.line, p.character + 1⟩
  else if p.line + 1 < lineCount buffer then ⟨p.line + 1, 0⟩
  else p

/-- Modelled from the spec: `Position.getLeftIfEOL` — a cursor sitting one
past the last character of its line is pulled back onto the last
character; any other cursor is unchanged. -/
def Position.getLeftIfEOL (buffer : Buffer) (p : Position) : Position :=
  if p.character = lineLen buffer p.line then p.getLeft else p

/-- A cursor position within document bounds, sitting on a character of
its line (column 0 on an empty line) — the domain of spec §8's
"positions `p` within document bounds". -/
def inBounds (buffer : Buffer) (p : Position) : Prop :=
  p.line < lineCount buffer ∧ p.character < max 1 (lineLen buffer p.line)

instance (buffer : Buffer) (p : Position) : Decidable (inBounds buffer p) := by
  unfold inBounds; infer_instance

/-! ### Movements (`src/src/actions/motion.ts`) -/

/-- The result of a (more sophisticated) movement (`motion.ts` lines
28–43): a range with a `failed` flag. The source's optional `diff` and
`registerMode` fields are never consulted by the code embedded here and
are not modelled. -/
structure IMovement where
  start : Position
  stop : Position
  failed : Bool
deriving DecidableEq, Repr

/-- A movement returns either a plain `Position` or an `IMovement`
(the source's `Position | IMovement` union). -/
inductive MotionResult where
  | pos (p : Position)
  | mov (m : IMovement)
deriving DecidableEq, Repr

/-- `SelectionType` (`motion.ts` lines 45–48): selections that concatenate
repeated movements versus selections that expand the previous one. -/
inductive SelectionType where
  | Concatenating
  | Expanding
deriving DecidableEq, Repr

/-- The indices at which character `c` occurs in a line. -/
def occurrenceIndices (l : Line) (c : Char) : List Nat :=
  (List.range l.length).filter (fun i => l.get? i = some c)

/-- Modelled from the spec: `Position.findForwards(char, count)` — the
`count`-th occurrence of the character strictly after the cursor column on
the cursor's line; `none` when the character does not occur that many
times there. -/
def findForwards (buffer : Buffer) (p : Position) (c : Char) (count : Nat) : Option Position :=
  match ((occurrenceIndices (lineAt buffer p.line) c).filter
      (fun i => p.character < i)).get? (count - 1) with
  | none => none
  | some i => some ⟨p.line, i⟩

/-- Modelled from the spec: `Position.findBackwards(char, count)` — the
`count`-th occurrence of the character strictly before the cursor column
on the cursor's line, counting towards the line start; `none` when the
character does not occur that many times there. -/
def findBackwards (buffer : Buffer) (p : Position) (c : Char) (count : Nat) : Option Position :=
  match ((occurrenceIndices (lineAt buffer p.line) c).filter
      (fun i => i < p.character)).reverse.get? (count - 1) with
  | none => none
  | some i => some ⟨p.line, i⟩

/-- Modelled from the spec: `Position.tilForwards(char, count)` — the
column just before the `count`-th forward occurrence. -/
def tilForwards (buffer : Buffer) (p : Position) (c : Char) (count : Nat) : Option Position :=
  (findForwards buffer p c count).map (fun q => ⟨q.line, q.character - 1⟩)

/-- Modelled from the spec: `Position.tilBackwards(char, count)` — the
column just after the `count`-th backward occurrence. -/
def tilBackwards (buffer : Buffer) (p : Position) (c : Char) (count : Nat) : Option Position :=
  (findBackwards buffer p c count).map (fun q => ⟨q.line, q.character + 1⟩)

/-- `MoveFindForward.execActionWithCount` (`motion.ts` lines 660–690):
`f<character>`. A missing occurrence yields
`{start: position, stop: position, failed: true}`; with a pending
operator the landing position is taken one right. (The
semicolon/comma repeat-movement registration of the source only mutates
`vimState` and does not affect the returned value.) -/
def MoveFindForward.execActionWithCount (buffer : Buffer) (toFind : Char)
    (hasOperator : Bool) (isRepeat : Bool) (position : Position) (count : Nat) :
    MotionResult :=
  let count := if count = 0 then 1 else count
  match findForwards buffer position toFind count with
  | none => .mov ⟨position, position, true⟩
  | some result =>
    let result := if hasOperator then result.getRight buffer else result
    .pos result

/-- `MoveFindBackward.execActionWithCount` (`motion.ts` lines 693–719):
`F<character>`. -/
def MoveFindBackward.execActionWithCount (buffer : Buffer) (toFind : Char)
    (isRepeat : Bool) (position : Position) (count : Nat) : MotionResult :=
  let count := if count = 0 then 1 else count
  match findBackwards buffer position toFind count with
  | none => .mov ⟨position, position, true⟩
  | some result => .pos result

/-- `MoveTilForward.execActionWithCount` (`motion.ts` lines 722–757):
`t<character>`, with the repeat special case (`;` after `t` runs as
`2t`). -/
def MoveTilForward.execActionWithCount (buffer : Buffer) (toFind : Char)
    (hasOperator : Bool) (isRepeat : Bool) (position : Position) (count : Nat) :
    MotionResult :=
  let count := if count = 0 then 1 else count
  let result := tilForwards buffer position toFind count
  let result :=
    match result with
    | some r =>
      if isRepeat && r == position && count == 1 then tilForwards buffer position toFind 2
      else some r
    | none => none
  match result with
  | none => .mov ⟨position, position, true⟩
  | some r =>
    let r := if hasOperator then r.getRight buffer else r
    .pos r

/-- `MoveTilBackward.execActionWithCount` (`motion.ts` lines 760–791):
`T<character>`. -/
def MoveTilBackward.execActionWithCount (buffer : Buffer) (toFind : Char)
    (isRepeat : Bool) (position : Position) (count : Nat) : MotionResult :=
  let count := if count = 0 then 1 else count
  let result := tilBackwards buffer position toFind count
  let result :=
    match result with
    | some r =>
      if isRepeat && r == position && count == 1 then tilBackwards buffer position toFind 2
      else some r
    | none => none
  match result with
  | none => .mov ⟨position, position, true⟩
  | some r => .pos r

/-- An entry of `PairMatcher.pairings`: the partner character and whether
`%` jumps on this pair. -/
structure PairInfo where
  «match» : Char
  matchesWithPercentageMotion : Bool
deriving DecidableEq, Repr

/-- Modelled from the spec: `PairMatcher.pairings` — the pairable bracket
characters; `()`, `{}` and `[]` pair under the `%` motion, `<>` pairs
only for bracket text objects. -/
def pairings (c : Char) : Option PairInfo :=
  if c = '(' then some ⟨')', true⟩
  else if c = ')' then some ⟨'(', true⟩
  else if c = '{' then some ⟨'}', true⟩
  else if c = '}' then some ⟨'{', true⟩
  else if c = '[' then some ⟨']', true⟩
  else if c = ']' then some ⟨'[', true⟩
  else if c = '<' then some ⟨'>', false⟩
  else if c = '>' then some ⟨'<', false⟩
  else none

/-- The scan of `MoveToMatchingBracket.execAction` (`motion.ts` lines
1418–1424): from column `i`, the first column holding a pairable
character, together with that character. -/
def firstPairableIdx (text : Line) (i : Nat) : Option (Nat × Char) :=
  if h : i < text.length then
    let c := text.get ⟨i, h⟩
    if (pairings c).isSome then some (i, c) else firstPairableIdx text (i + 1)
  else none
termination_by text.length - i

/-- `MoveToMatchingBracket.execAction` (`motion.ts` lines 1402–1430).
`nextPairedChar` stands for the repository's `PairMatcher.nextPairedChar`
(its module is not part of the sources here); the function is a parameter
so the theorem holds for any implementation of it. -/
def MoveToMatchingBracket.execAction (buffer : Buffer)
    (nextPairedChar : Position → Char → Option Position) (position : Position) :
    MotionResult :=
  let position := position.getLeftIfEOL buffer
  let text := lineAt buffer position.line
  let charToMatch : Option Char := text.get? position.character
  let toFind : Option PairInfo := charToMatch.bind pairings
  let failure : IMovement := ⟨position, position, true⟩
  match toFind with
  | some info =>
    if info.matchesWithPercentageMotion then
      match nextPairedChar position (charToMatch.getD ' ') with
      | some p => .pos p
      | none => .mov failure
    else
      match firstPairableIdx text position.character with
      | some (i, c) =>
        match nextPairedChar ⟨position.line, i⟩ c with
        | some p => .pos p
        | none => .mov failure
      | none => .mov failure
  | none =>
    match firstPairableIdx text position.character with
    | some (i, c) =>
      match nextPairedChar ⟨position.line, i⟩ c with
      | some p => .pos p
      | none => .mov failure
    | none => .mov failure

/-- The opening/closing bound search of `MoveQuoteMatch.execAction`
(`motion.ts` lines 1706–1714), including the backwards retry when the
start character is itself a match with no forward partner. `findOpening`
and `findClosing` stand for the repository's `QuoteMatcher` methods
(its module is not part of the sources here) and return −1 for "not
found". -/
def MoveQuoteMatch.searchBounds (findOpening findClosing : Int → Int)
    (position : Position) : Int × Int :=
  let start := findOpening position.character
  let «end» := findClosing (start + 1)
  if «end» < start ∧ start = (position.character : Int) then
    (findOpening (start - 1), start)
  else (start, «end»)

/-- The failure condition of `MoveQuoteMatch.execAction` (`motion.ts`
line 1716): the quote text object cannot locate an enclosing quote pair
on the line. -/
def MoveQuoteMatch.cannotLocate (findOpening findClosing : Int → Int)
    (position : Position) : Prop :=
  let se := MoveQuoteMatch.searchBounds findOpening findClosing position
  se.1 = -1 ∨ se.2 = -1 ∨ se.2 = se.1 ∨ se.2 < (position.character : Int)

instance (fO fC : Int → Int) (p : Position) :
    Decidable (MoveQuoteMatch.cannotLocate fO fC p) := by
  unfold MoveQuoteMatch.cannotLocate; infer_instance

/-- `MoveQuoteMatch.execAction` (`motion.ts` lines 1703–1740). (The
`operatorPositionDiff` assignment of the source only mutates `vimState`
and does not affect the returned value.) -/
def MoveQuoteMatch.execAction (buffer : Buffer) (findOpening findClosing : Int → Int)
    (includeSurrounding : Bool) (position : Position) : MotionResult :=
  let se := MoveQuoteMatch.searchBounds findOpening findClosing position
  if se.1 = -1 ∨ se.2 = -1 ∨ se.2 = se.1 ∨ se.2 < (position.character : Int) then
    .mov ⟨position, position, true⟩
  else
    let startPos : Position := ⟨position.line, se.1.toNat⟩
    let endPos : Position := ⟨position.line, se.2.toNat⟩
    let startPos := if includeSurrounding then startPos else startPos.getRight buffer
    let endPos := if includeSurrounding then endPos else endPos.getLeft
    .mov ⟨startPos, endPos, false⟩

/-! #### Lemmas for C1 -/

theorem firstPairableIdx_none {text : Line} :
    ∀ i, (∀ c ∈ text.drop i, pairings c = none) → firstPairableIdx text i = none := by
  intro i
  generalize hk : text.length - i = k
  induction k generalizing i with
  | zero =>
    intro _
    unfold firstPairableIdx
    have hi : ¬ i < text.length := by omega
    simp [hi]
  | succ k ih =>
    intro h
    unfold firstPairableIdx
    by_cases hi : i < text.length
    · simp only [dif_pos hi]
      have hdrop : text.drop i = text[i] :: text.drop (i + 1) :=
        List.drop_eq_getElem_cons hi
      have hc : pairings (text.get ⟨i, hi⟩) = none := by
        apply h
        rw [hdrop]
        exact List.mem_cons_self _ _
      simp only [hc, Option.isSome_none, Bool.false_eq_true, if_false]
      refine ih (i + 1) (by omega) ?_
      intro c hcmem
      apply h
      rw [hdrop]
      exact List.mem_cons_of_mem _ hcmem
    · simp [hi]

theorem getLeftIfEOL_fix {buffer : Buffer} {p : Position}
    (h : p.character < max 1 (lineLen buffer p.line)) :
    p.getLeftIfEOL buffer = p := by
  unfold Position.getLeftIfEOL Position.getLeft
  by_cases h0 : lineLen buffer p.line = 0
  · have hc : p.character = 0 := by omega
    simp [h0, hc]
  · have hne : p.character ≠ lineLen buffer p.line := by omega
    simp [hne]

theorem lineAt_get?_bind_pairings_none {buffer : Buffer} {p : Position}
    (hpct : ∀ c ∈ (lineAt buffer p.line).drop p.character, pairings c = none) :
    ((lineAt buffer p.line).get? p.character).bind pairings = none := by
  cases hget : (lineAt buffer p.line).get? p.character with
  | none => rfl
  | some c =>
    have hlt : p.character < (lineAt buffer p.line).length := by
      by_contra hge
      rw [List.get?_eq_none.mpr (by omega)] at hget
      exact Option.noConfusion hget
    have hc : (lineAt buffer p.line)[p.character] = c := by
      have := List.get?_eq_get (l := lineAt buffer p.line) hlt
      rw [this, Option.some.injEq] at hget
      exact hget
    have hcmem : c ∈ (lineAt buffer p.line).drop p.character := by
      rw [List.drop_eq_getElem_cons hlt, hc]
      exact List.mem_cons_self _ _
    simp [hpct c hcmem]

/-- C1: every motion that cannot locate its target — `f`/`F`/`t`/`T` with
too few occurrences of the character, `%` with no pairable character on
the rest of the line, and a quote text object with no enclosing quote
pair on the line — returns a Range whose `failed` flag is true and whose
start and stop both equal the cursor position passed in. -/
theorem c1_failed_motions_return_failed_range
    (buffer : Buffer) (pos : Position) (cf cF ct cT : Char) (nf nF nt nT : Nat)
    (hasOp isRep : Bool) (findOpening findClosing : Int → Int) (inclSurr : Bool)
    (nextPairedChar : Position → Char → Option Position)
    (hf : findForwards buffer pos cf (if nf = 0 then 1 else nf) = none)
    (hF : findBackwards buffer pos cF (if nF = 0 then 1 else nF) = none)
    (ht : tilForwards buffer pos ct (if nt = 0 then 1 else nt) = none)
    (hT : tilBackwards buffer pos cT (if nT = 0 then 1 else nT) = none)
    (hcursor : pos.character < max 1 (lineLen buffer pos.line))
    (hpct : ∀ c ∈ (lineAt buffer pos.line).drop pos.character, pairings c = none)
    (hq : MoveQuoteMatch.cannotLocate findOpening findClosing pos) :
    MoveFindForward.execActionWithCount buffer cf hasOp isRep pos nf
        = .mov ⟨pos, pos, true⟩
    ∧ MoveFindBackward.execActionWithCount buffer cF isRep pos nF
        = .mov ⟨pos, pos, true⟩
    ∧ MoveTilForward.execActionWithCount buffer ct hasOp isRep pos nt
        = .mov ⟨pos, pos, true⟩
    ∧ MoveTilBackward.execActionWithCount buffer cT isRep pos nT
        = .mov ⟨pos, pos, true⟩
    ∧ MoveToMatchingBracket.execAction buffer nextPairedChar pos
        = .mov ⟨pos, pos, true⟩
    ∧ MoveQuoteMatch.execAction buffer findOpening findClosing inclSurr pos
        = .mov ⟨pos, pos, true⟩ := by
  refine ⟨?_, ?_, ?_, ?_, ?_, ?_⟩
  · simp [MoveFindForward.execActionWithCount, hf]
  · simp [MoveFindBackward.execActionWithCount, hF]
  · simp [MoveTilForward.execActionWithCount, ht]
  · simp [MoveTilBackward.execActionWithCount, hT]
  · have hfix := getLeftIfEOL_fix hcursor
    have htf := lineAt_get?_bind_pairings_none hpct
    rw [List.get?_eq_getElem?] at htf
    have hscan := @firstPairableIdx_none (lineAt buffer pos.line) pos.character hpct
    simp [MoveToMatchingBracket.execAction, hfix, htf, hscan]
  · unfold MoveQuoteMatch.execAction
    unfold MoveQuoteMatch.cannotLocate at hq
    simp only [if_pos hq]

/-- Witness for C1: on the one-line buffer `"abc"` with the cursor at
(0,0), searching for `'z'` forwards/backwards, `%`, and a quote object
whose matcher finds nothing, all fail in place. -/
theorem c1_failed_motions_return_failed_range_witness :
    MoveFindForward.execActionWithCount ["abc".toList] 'z' false false ⟨0, 0⟩ 2
        = .mov ⟨⟨0, 0⟩, ⟨0, 0⟩, true⟩
    ∧ MoveFindBackward.execActionWithCount ["abc".toList] 'z' false ⟨0, 0⟩ 1
        = .mov ⟨⟨0, 0⟩, ⟨0, 0⟩, true⟩
    ∧ MoveTilForward.execActionWithCount ["abc".toList] 'z' false false ⟨0, 0⟩ 1
        = .mov ⟨⟨0, 0⟩, ⟨0, 0⟩, true⟩
    ∧ MoveTilBackward.execActionWithCount ["abc".toList] 'z' false ⟨0, 0⟩ 1
        = .mov ⟨⟨0, 0⟩, ⟨0, 0⟩, true⟩
    ∧ MoveToMatchingBracket.execAction ["abc".toList] (fun _ _ => none) ⟨0, 0⟩
        = .mov ⟨⟨0, 0⟩, ⟨0, 0⟩, true⟩
    ∧ MoveQuoteMatch.execAction ["abc".toList] (fun _ => -1) (fun _ => -1) false ⟨0, 0⟩
        = .mov ⟨⟨0, 0⟩, ⟨0, 0⟩, true⟩ :=
  c1_failed_motions_return_failed_range ["abc".toList] ⟨0, 0⟩ 'z' 'z' 'z' 'z' 2 1 1 1
    false false (fun _ => -1) (fun _ => -1) false (fun _ _ => none)
    (by decide) (by decide) (by decide) (by decide) (by decide) (by decide) (by decide)

/-! ### Single-key movements and the `0` key (`motion.ts`) -/

/-- `MoveLeft.execAction` (`motion.ts` lines 550–559): `h`. `wrap` is the
value of the repository's `shouldWrapKey` (modelled from the spec §6/§8:
whether the whichwrap configuration enables wrapping for this key). -/
def MoveLeft.execAction (wrap : Bool) (buffer : Buffer) (position : Position) : Position :=
  if wrap then position.getLeftThroughLineBreaks buffer else position.getLeft

/-- `MoveRight.execAction` (`motion.ts` lines 577–588): `l`. (The
source's `includeEol` refinement only applies in Insert mode and is not
modelled; these are Normal/Visual-mode movements.) -/
def MoveRight.execAction (wrap : Bool) (buffer : Buffer) (position : Position) : Position :=
  if wrap then position.getRightThroughLineBreaks buffer else position.getRight buffer

/-- C9: the single-key movements `h` and `l` keep every in-bounds cursor
in bounds; without wrap an invalid move (left at column 0, right at the
line's last character) is the identity, and with wrap it crosses the line
break (to the last character of the previous line, resp. column 0 of the
next line). -/
theorem c9_single_key_movements_bounds (buffer : Buffer) (pos : Position) (wrap : Bool)
    (hb : inBounds buffer pos) :
    inBounds buffer (MoveLeft.execAction wrap buffer pos)
    ∧ inBounds buffer (MoveRight.execAction wrap buffer pos)
    ∧ (wrap = false → pos.character = 0 →
        MoveLeft.execAction wrap buffer pos = pos)
    ∧ (wrap = false → pos.character + 1 = max 1 (lineLen buffer pos.line) →
        MoveRight.execAction wrap buffer pos = pos)
    ∧ (wrap = true → pos.character = 0 → 0 < pos.line →
        MoveLeft.execAction wrap buffer pos = ⟨pos.line - 1, lastCol buffer (pos.line - 1)⟩)
    ∧ (wrap = true → pos.character + 1 = max 1 (lineLen buffer pos.line) →
        pos.line + 1 < lineCount buffer →
        MoveRight.execAction wrap buffer pos = ⟨pos.line + 1, 0⟩) := by
  obtain ⟨hline, hchar⟩ := hb
  refine ⟨?_, ?_, ?_, ?_, ?_, ?_⟩
  · unfold MoveLeft.execAction Position.getLeftThroughLineBreaks Position.getLeft
    cases wrap with
    | false =>
      by_cases h0 : pos.character = 0
      · simpa [h0] using ⟨hline, hchar⟩
      · simp only [if_false, Bool.false_eq_true, h0, if_neg h0]
        exact ⟨hline, by dsimp only; omega⟩
    | true =>
      by_cases h0 : 0 < pos.character
      · simp only [if_pos h0, if_true]
        exact ⟨hline, by dsimp only; omega⟩
      · by_cases h1 : 0 < pos.line
        · simp only [if_true, if_neg h0, if_pos h1]
          refine ⟨by dsimp only; omega, ?_⟩
          dsimp only
          unfold lastCol
          omega
        · simp only [if_true, if_neg h0, if_neg h1]
          exact ⟨hline, hchar⟩
  · unfold MoveRight.execAction Position.getRightThroughLineBreaks Position.getRight
    cases wrap with
    | false =>
      by_cases h0 : pos.character + 1 < max 1 (lineLen buffer pos.line)
      · simp only [Bool.false_eq_true, if_false, if_pos h0]
        exact ⟨hline, by dsimp only; omega⟩
      · simp only [Bool.false_eq_true, if_false, if_neg h0]
        exact ⟨hline, hchar⟩
    | true =>
      by_cases h0 : pos.character + 1 < max 1 (lineLen buffer pos.line)
      · simp only [if_true, if_pos h0]
        exact ⟨hline, by dsimp only; omega⟩
      · by_cases h1 : pos.line + 1 < lineCount buffer
        · simp only [if_true, if_neg h0, if_pos h1]
          exact ⟨h1, by dsimp only; omega⟩
        · simp only [if_true, if_neg h0, if_neg h1]
          exact ⟨hline, hchar⟩
  · intro hw h0
    subst hw
    unfold MoveLeft.execAction Position.getLeft
    simp [h0]
  · intro hw h0
    subst hw
    unfold MoveRight.execAction Position.getRight
    have : ¬ pos.character + 1 < max 1 (lineLen buffer pos.line) := by omega
    simp [this]
  · intro hw h0 h1
    subst hw
    unfold MoveLeft.execAction Position.getLeftThroughLineBreaks
    have hn0 : ¬ 0 < pos.character := by omega
    simp [hn0, h1]
  · intro hw h0 h1
    subst hw
    unfold MoveRight.execAction Position.getRightThroughLineBreaks
    have hn0 : ¬ pos.character + 1 < max 1 (lineLen buffer pos.line) := by omega
    simp [hn0, h1]

/-- Witness for C9: buffer `["ab", "cd"]`, cursor at (1,0). -/
theorem c9_single_key_movements_bounds_witness :
    (inBounds ["ab".toList, "cd".toList] ⟨1, 0⟩
      ∧ inBounds ["ab".toList, "cd".toList]
          (MoveLeft.execAction true ["ab".toList, "cd".toList] ⟨1, 0⟩))
    ∧ MoveLeft.execAction true ["ab".toList, "cd".toList] ⟨1, 0⟩
        = ⟨0, lastCol ["ab".toList, "cd".toList] 0⟩ :=
  ⟨⟨by decide,
    (c9_single_key_movements_bounds ["ab".toList, "cd".toList] ⟨1, 0⟩ true (by decide)).1⟩,
   (c9_single_key_movements_bounds ["ab".toList, "cd".toList] ⟨1, 0⟩ true
       (by decide)).2.2.2.2.1 rfl rfl (by decide)⟩

/-- A typed key event (spec §4.1). -/
abbrev Key := String

/-- Modelled from the spec (§4.1): one pattern slot matches a typed key
when it is that literal key, or a placeholder consuming any single key
event. -/
def keyMatchesPattern (pat key : Key) : Bool :=
  pat == "<character>" || pat == "<any>" || pat == key

/-- Modelled from the spec (§4.1): a key pattern row matches the typed
sequence elementwise, placeholders included
(`BaseAction.CompareKeypressSequence` for one row). -/
def compareKeyRow (one two : List Key) : Bool :=
  one.length == two.length && (List.zip one two).all (fun pk => keyMatchesPattern pk.1 pk.2)

/-- Modelled from the spec (§4.1): an action with several key patterns
matches when any of its rows matches. -/
def BaseAction.compareKeypressSequence (keys : List (List Key)) (typed : List Key) : Bool :=
  keys.any (fun row => compareKeyRow row typed)

/-- Modelled from the spec (§4.1): the shared applicability test of
`BaseAction.doesActionApply` — the current mode is among the action's
modes and the typed keys match its key pattern. -/
def BaseAction.doesActionApply (modes : List ModeName) (keys : List (List Key))
    (currentMode : ModeName) (keysPressed : List Key) : Bool :=
  modes.contains currentMode && BaseAction.compareKeypressSequence keys keysPressed

/-- Modelled from the spec (§4.1): the shared partial-match test of
`BaseAction.couldActionApply` — as `doesActionApply` but each pattern row
is cut to the length of the keys typed so far. -/
def BaseAction.couldActionApply (modes : List ModeName) (keys : List (List Key))
    (currentMode : ModeName) (keysPressed : List Key) : Bool :=
  modes.contains currentMode &&
    keys.any (fun row => compareKeyRow (row.take keysPressed.length) keysPressed)

/-- The modes of `BaseMovement` (`motion.ts` line 54). -/
def BaseMovement.modes : List ModeName :=
  [.Normal, .Visual, .VisualLine, .VisualBlock]

/-- `MoveLineBegin.keys` (`motion.ts` line 843). -/
def MoveLineBegin.keys : List (List Key) := [["0"], ["<Home>"], ["<D-left>"]]

/-- `MoveLineBegin.execAction` (`motion.ts` lines 845–847): move to
column 0. -/
def MoveLineBegin.execAction (position : Position) : Position :=
  position.getLineBegin

/-- `MoveLineBegin.doesActionApply` (`motion.ts` lines 849–851): the base
test plus `recordedState.count === 0`. -/
def MoveLineBegin.doesActionApply (currentMode : ModeName) (count : Nat)
    (keysPressed : List Key) : Bool :=
  BaseAction.doesActionApply BaseMovement.modes MoveLineBegin.keys currentMode keysPressed
    && count == 0

/-- `MoveLineBegin.couldActionApply` (`motion.ts` lines 853–855). -/
def MoveLineBegin.couldActionApply (currentMode : ModeName) (count : Nat)
    (keysPressed : List Key) : Bool :=
  BaseAction.couldActionApply BaseMovement.modes MoveLineBegin.keys currentMode keysPressed
    && count == 0

/-- C8: in an eligible mode, the key `0` is interpreted as the
move-to-column-0 motion exactly when no count is accumulating
(`recordedState.count = 0`); with a nonzero accumulated count the action
does not apply (so `0` is left to be consumed as a count digit), and the
action itself moves to column 0. -/
theorem c8_zero_is_line_begin_iff_no_count (currentMode : ModeName) (count : Nat)
    (pos : Position) (hmode : BaseMovement.modes.contains currentMode = true) :
    (MoveLineBegin.doesActionApply currentMode count ["0"] = true ↔ count = 0)
    ∧ (MoveLineBegin.couldActionApply currentMode count ["0"] = true ↔ count = 0)
    ∧ MoveLineBegin.execAction pos = ⟨pos.line, 0⟩ := by
  have hcmp :
      BaseAction.compareKeypressSequence MoveLineBegin.keys ["0"] = true := by decide
  have hcmp' :
      (MoveLineBegin.keys.any fun row =>
        compareKeyRow (row.take (["0"] : List Key).length) ["0"]) = true := by decide
  refine ⟨?_, ?_, rfl⟩
  · unfold MoveLineBegin.doesActionApply
    have hbase : BaseAction.doesActionApply BaseMovement.modes MoveLineBegin.keys
        currentMode ["0"] = true := by
      unfold BaseAction.doesActionApply
      rw [Bool.and_eq_true]
      exact ⟨hmode, hcmp⟩
    simp [hbase]
  · unfold MoveLineBegin.couldActionApply
    have hbase : BaseAction.couldActionApply BaseMovement.modes MoveLineBegin.keys
        currentMode ["0"] = true := by
      unfold BaseAction.couldActionApply
      rw [Bool.and_eq_true]
      exact ⟨hmode, hcmp'⟩
    simp [hbase]

/-- Witness for C8 in Normal mode: `0` applies with no count and does not
apply with count 3. -/
theorem c8_zero_is_line_begin_iff_no_count_witness :
    (MoveLineBegin.doesActionApply .Normal 0 ["0"] = true ↔ (0 : Nat) = 0)
    ∧ ¬ MoveLineBegin.doesActionApply .Normal 3 ["0"] = true
    ∧ MoveLineBegin.execAction ⟨4, 7⟩ = ⟨4, 0⟩ :=
  ⟨(c8_zero_is_line_begin_iff_no_count .Normal 0 ⟨4, 7⟩ (by decide)).1,
   fun h => by
    have := (c8_zero_is_line_begin_iff_no_count .Normal 3 ⟨4, 7⟩ (by decide)).1.mp h
    exact absurd this (by decide),
   (c8_zero_is_line_begin_iff_no_count .Normal 0 ⟨4, 7⟩ (by decide)).2.2⟩

/-! ### The count loop (`BaseMovement.execActionWithCount`, `motion.ts`
lines 126–201) -/

/-- `BaseMovement.adjustPosition` and the `ExpandingSelection` override
(`motion.ts` lines 184–201), dispatched on the selection type: between
iterations a concatenating motion continues one right of the previous
stop (through line breaks); an expanding one continues at the stop
itself. -/
def adjustPosition (buffer : Buffer) (selType : SelectionType) (position : Position)
    (result : IMovement) (lastIteration : Bool) : Position :=
  match selType with
  | .Concatenating =>
    if lastIteration then position else result.stop.getRightThroughLineBreaks buffer
  | .Expanding =>
    if lastIteration then position else result.stop

/-- The trailing start-rewrite of `execActionWithCount` (`motion.ts`
lines 159–161): a concatenating motion's final `IMovement` gets the first
movement's start. -/
def finalizeResult (selType : SelectionType) (firstMovementStart : Position) :
    MotionResult → MotionResult
  | .mov m =>
    if selType = .Concatenating then .mov { m with start := firstMovementStart }
    else .mov m
  | .pos p => .pos p

/-- The `for` loop of `BaseMovement.execActionWithCount` (`motion.ts`
lines 138–157), as fuel recursion with `fuel = count − i`. On a failed
`IMovement` after a previous one the previous result is returned
(line 146–148, skipping the trailing start-rewrite); on the last
iteration with a pending operator `execActionForOperator` (`fop`) runs
instead of `execAction` (`f`). -/
def execLoop (f fop : Position → MotionResult) (hasOperator : Bool)
    (selType : SelectionType) (buffer : Buffer) (count : Nat) :
    Nat → Nat → Position → Option IMovement → Position → MotionResult → MotionResult
  | 0, _, _, _, firstMovementStart, result =>
    finalizeResult selType firstMovementStart result
  | fuel + 1, i, position, prevResult, firstMovementStart, _ =>
    match (if hasOperator && (i == count - 1) then fop position else f position) with
    | .pos p =>
      execLoop f fop hasOperator selType buffer count fuel (i + 1) p prevResult
        firstMovementStart (.pos p)
    | .mov m =>
      if prevResult.isSome && m.failed then .mov (prevResult.getD m)
      else
        execLoop f fop hasOperator selType buffer count fuel (i + 1)
          (adjustPosition buffer selType position m (i == count - 1))
          (some m)
          (if i == 0 then m.start else firstMovementStart)
          (.mov m)

/-- `BaseMovement.clampCount` (`motion.ts` lines 166–170). -/
def clampCount (minCount maxCount count : Nat) : Nat :=
  min (max count minCount) maxCount

/-- `BaseMovement.execActionWithCount` (`motion.ts` lines 126–164).
`result` starts as the source's bogus `Position(0, 0)` initializer,
`firstMovementStart` as the entry position. -/
def BaseMovement.execActionWithCount (f fop : Position → MotionResult)
    (hasOperator : Bool) (selType : SelectionType) (buffer : Buffer)
    (minCount maxCount : Nat) (position : Position) (count : Nat) : MotionResult :=
  let c := clampCount minCount maxCount count
  execLoop f fop hasOperator selType buffer c c 0 position none position (.pos ⟨0, 0⟩)

/-- The iteration start positions the claim describes, for a motion whose
single run is `g`: iteration 0 starts at the entry position, and each
later iteration at the previous iteration's stop — moved one right
through line breaks for a concatenating motion, unmoved for an expanding
one. -/
def iterStart (g : Position → IMovement) (selType : SelectionType) (buffer : Buffer)
    (p0 : Position) : Nat → Position
  | 0 => p0
  | i + 1 =>
    let m := g (iterStart g selType buffer p0 i)
    match selType with
    | .Concatenating => m.stop.getRightThroughLineBreaks buffer
    | .Expanding => m.stop

/-- The `i`-th iteration's movement result under the claimed chaining. -/
def iterResult (g : Position → IMovement) (selType : SelectionType) (buffer : Buffer)
    (p0 : Position) (i : Nat) : IMovement :=
  g (iterStart g selType buffer p0 i)

/-! #### Lemmas for C5 -/

theorem execLoop_success {g : Position → IMovement} {selType : SelectionType}
    {buffer : Buffer} {p0 : Position} {N : Nat} :
    ∀ fuel i (prev : Option IMovement) (fs : Position) (res : MotionResult),
      i + fuel = N → 0 < fuel →
      (∀ j, i ≤ j → j < N → (iterResult g selType buffer p0 j).failed = false) →
      execLoop (fun p => .mov (g p)) (fun p => .mov (g p)) false selType buffer N fuel i
          (iterStart g selType buffer p0 i) prev fs res
        = finalizeResult selType
            (if i = 0 then (iterResult g selType buffer p0 0).start else fs)
            (.mov (iterResult g selType buffer p0 (N - 1))) := by
  intro fuel
  induction fuel with
  | zero => intro i prev fs res _ h0 _; omega
  | succ fuel ih =>
    intro i prev fs res hiN _ hsucc
    have hfail : (g (iterStart g selType buffer p0 i)).failed = false :=
      hsucc i (Nat.le_refl i) (by omega)
    simp only [execLoop, Bool.false_and, if_false, Bool.false_eq_true]
    simp only [hfail, Bool.and_false, Bool.false_eq_true, if_false]
    cases fuel with
    | zero =>
      have hi : i = N - 1 := by omega
      simp only [execLoop]
      have hm : g (iterStart g selType buffer p0 i) = iterResult g selType buffer p0 (N - 1) := by
        rw [hi]; rfl
      rw [hm]
      congr 1
      by_cases h0 : i = 0
      · have : N = 1 := by omega
        simp [h0, this, iterResult]
      · simp only [h0]
        have : (i == 0) = false := by simp [h0]
        simp [this]
    | succ fuel' =>
      have hlast : (i == N - 1) = false := by
        have : i ≠ N - 1 := by omega
        simp [this]
      have hadj : adjustPosition buffer selType (iterStart g selType buffer p0 i)
          (g (iterStart g selType buffer p0 i)) (i == N - 1)
          = iterStart g selType buffer p0 (i + 1) := by
        rw [hlast]
        cases selType <;> simp [adjustPosition, iterStart]
      rw [hadj]
      rw [ih (i + 1) (some (g (iterStart g selType buffer p0 i)))
        (if i == 0 then (g (iterStart g selType buffer p0 i)).start else fs)
        (.mov (g (iterStart g selType buffer p0 i))) (by omega) (by omega)
        (fun j hj1 hj2 => hsucc j (by omega) hj2)]
      congr 1
      by_cases h0 : i = 0
      · simp [h0, iterResult]
      · have hb : (i == 0) = false := by simp [h0]
        have hb1 : i + 1 ≠ 0 := by omega
        simp [hb, hb1, h0]

theorem execLoop_failure_fallback {g : Position → IMovement} {selType : SelectionType}
    {buffer : Buffer} {p0 : Position} {N k : Nat}
    (hks : ∀ j, j ≤ k → (iterResult g selType buffer p0 j).failed = false)
    (hkf : (iterResult g selType buffer p0 (k + 1)).failed = true)
    (hkN : k + 1 < N) :
    ∀ fuel i (fs : Position) (res : MotionResult),
      i + fuel = N → i ≤ k + 1 →
      execLoop (fun p => .mov (g p)) (fun p => .mov (g p)) false selType buffer N fuel i
          (iterStart g selType buffer p0 i)
          (if i = 0 then none else some (iterResult g selType buffer p0 (i - 1))) fs res
        = .mov (iterResult g selType buffer p0 k) := by
  intro fuel
  induction fuel with
  | zero => intro i fs res hiN hik; omega
  | succ fuel ih =>
    intro i fs res hiN hik
    simp only [execLoop, Bool.false_and, if_false, Bool.false_eq_true]
    by_cases hi : i = k + 1
    · have hpne : i ≠ 0 := by omega
      have hm : g (iterStart g selType buffer p0 i)
          = iterResult g selType buffer p0 (k + 1) := by
        rw [hi]; rfl
      rw [hm]
      simp only [if_neg hpne, Option.isSome_some, Bool.true_and, hkf, if_true]
      simp only [Option.getD_some]
      have hik1 : i - 1 = k := by omega
      rw [hik1]
    · have hile : i ≤ k := by omega
      have hm : g (iterStart g selType buffer p0 i) = iterResult g selType buffer p0 i := rfl
      have hfail : (g (iterStart g selType buffer p0 i)).failed = false := by
        rw [hm]; exact hks i hile
      simp only [hfail, Bool.and_false, Bool.false_eq_true, if_false]
      have hlast : (i == N - 1) = false := by
        have : i ≠ N - 1 := by omega
        simp [this]
      have hadj : adjustPosition buffer selType (iterStart g selType buffer p0 i)
          (g (iterStart g selType buffer p0 i)) (i == N - 1)
          = iterStart g selType buffer p0 (i + 1) := by
        rw [hlast]
        cases selType <;> simp [adjustPosition, iterStart]
      rw [hadj]
      have hstep := ih (i + 1)
        (if i == 0 then (g (iterStart g selType buffer p0 i)).start else fs)
        (.mov (g (iterStart g selType buffer p0 i))) (by omega) (by omega)
      have hpz : i + 1 ≠ 0 := by omega
      rw [if_neg hpz] at hstep
      simpa [hm] using hstep

/-- C5: a motion run with count `N` (every single run returning an
`IMovement`, no pending operator). Concatenating: iteration `i + 1`
starts one right (through line breaks) of iteration `i`'s stop, and the
returned range is the last iteration's with its start replaced by the
first iteration's start. Expanding: iteration `i + 1` starts exactly at
iteration `i`'s stop and only the final iteration's range is returned.
If iteration `k + 1` fails after successful iterations `0..k`, iteration
`k`'s range is returned instead. -/
theorem c5_execActionWithCount_chaining (g : Position → IMovement) (buffer : Buffer)
    (p0 : Position) (N : Nat) (selType : SelectionType)
    (hN1 : 1 ≤ N) (hN2 : N ≤ 99999) :
    ((∀ i, i < N → (iterResult g .Concatenating buffer p0 i).failed = false) →
      BaseMovement.execActionWithCount (fun p => .mov (g p)) (fun p => .mov (g p)) false
          .Concatenating buffer 1 99999 p0 N
        = .mov { iterResult g .Concatenating buffer p0 (N - 1) with
                 start := (iterResult g .Concatenating buffer p0 0).start })
    ∧ ((∀ i, i < N → (iterResult g .Expanding buffer p0 i).failed = false) →
      BaseMovement.execActionWithCount (fun p => .mov (g p)) (fun p => .mov (g p)) false
          .Expanding buffer 1 99999 p0 N
        = .mov (iterResult g .Expanding buffer p0 (N - 1)))
    ∧ (∀ k, (∀ j, j ≤ k → (iterResult g selType buffer p0 j).failed = false) →
        (iterResult g selType buffer p0 (k + 1)).failed = true → k + 1 < N →
        BaseMovement.execActionWithCount (fun p => .mov (g p)) (fun p => .mov (g p)) false
            selType buffer 1 99999 p0 N
          = .mov (iterResult g selType buffer p0 k)) := by
  have hclamp : clampCount 1 99999 N = N := by
    unfold clampCount; omega
  refine ⟨?_, ?_, ?_⟩
  · intro hsucc
    simp only [BaseMovement.execActionWithCount, hclamp]
    have h := @execLoop_success g .Concatenating buffer p0 N N 0 none p0 (.pos ⟨0, 0⟩)
      (by omega) (by omega) (fun j _ hj => hsucc j hj)
    rw [if_pos rfl] at h
    exact h
  · intro hsucc
    simp only [BaseMovement.execActionWithCount, hclamp]
    have h := @execLoop_success g .Expanding buffer p0 N N 0 none p0 (.pos ⟨0, 0⟩)
      (by omega) (by omega) (fun j _ hj => hsucc j hj)
    rw [if_pos rfl] at h
    exact h
  · intro k hks hkf hkN
    simp only [BaseMovement.execActionWithCount, hclamp]
    have h := execLoop_failure_fallback hks hkf hkN N 0 p0 (.pos ⟨0, 0⟩) (by omega) (by omega)
    rw [if_pos rfl] at h
    exact h

/-- Witness for C5: on buffer `["ab ab ab"]` with
`g p = ⟨p, p + 2 columns, failed when past the line⟩`, count 2. -/
def c5g : Position → IMovement := fun p =>
  if p.character + 2 ≤ 8 then ⟨p, ⟨p.line, p.character + 2⟩, false⟩
  else ⟨p, p, true⟩

theorem c5_execActionWithCount_chaining_witness :
    BaseMovement.execActionWithCount (fun p => .mov (c5g p)) (fun p => .mov (c5g p)) false
        .Concatenating ["ab ab ab".toList] 1 99999 ⟨0, 0⟩ 2
      = .mov { iterResult c5g .Concatenating ["ab ab ab".toList] ⟨0, 0⟩ (2 - 1) with
               start := (iterResult c5g .Concatenating ["ab ab ab".toList] ⟨0, 0⟩ 0).start }
    ∧ BaseMovement.execActionWithCount (fun p => .mov (c5g p)) (fun p => .mov (c5g p)) false
        .Expanding ["ab ab ab".toList] 1 99999 ⟨0, 0⟩ 2
      = .mov (iterResult c5g .Expanding ["ab ab ab".toList] ⟨0, 0⟩ (2 - 1))
    ∧ BaseMovement.execActionWithCount (fun p => .mov (c5g p)) (fun p => .mov (c5g p)) false
        .Concatenating ["ab ab ab".toList] 1 99999 ⟨0, 0⟩ 5
      = .mov (iterResult c5g .Concatenating ["ab ab ab".toList] ⟨0, 0⟩ 2) :=
  ⟨(c5_execActionWithCount_chaining c5g ["ab ab ab".toList] ⟨0, 0⟩ 2 .Concatenating
      (by decide) (by decide)).1 (by decide),
   (c5_execActionWithCount_chaining c5g ["ab ab ab".toList] ⟨0, 0⟩ 2 .Concatenating
      (by decide) (by decide)).2.1 (by decide),
   (c5_execActionWithCount_chaining c5g ["ab ab ab".toList] ⟨0, 0⟩ 5 .Concatenating
      (by decide) (by decide)).2.2 2 (by decide) (by decide) (by decide)⟩

/-! ### The text model (spec §6, Text Buffer interface) -/

/-- Modelled from the spec: the document's full text — its lines joined
by the end-of-line character (LF model; the source's CRLF branch is noted
at `stripFinalEOL`). -/
def joinLines : Buffer → List Char
  | [] => []
  | [l] => l
  | l :: ls => l ++ '\n' :: joinLines ls

/-- The text offset of the beginning of line `k`: every earlier line
contributes its length plus its newline. -/
def lineStartOffset (buffer : Buffer) (k : Nat) : Nat :=
  ((buffer.take k).map (fun l => l.length + 1)).sum

/-- Modelled from the spec: Text Buffer `offsetAt(pos)` — the text
offset of a position, with the position first clamped into the document
(line to the last line, column to that line's length), as the host
editor validates range endpoints. -/
def offsetAt (buffer : Buffer) (p : Position) : Nat :=
  let l := min p.line (lineCount buffer - 1)
  lineStartOffset buffer l + min p.character (lineLen buffer l)

/-- Modelled from the spec: Text Buffer `getText(range)` (spec §6) —
the text between two positions, end exclusive. -/
def getText (buffer : Buffer) (start stop : Position) : List Char :=
  ((joinLines buffer).take (offsetAt buffer stop)).drop (offsetAt buffer start)

/-- Split a text back into its lines at each newline. -/
def splitLines : List Char → Buffer
  | [] => [[]]
  | c :: cs =>
    let r := splitLines cs
    if c = '\n' then [] :: r else (c :: r.headI) :: r.tail

/-- Modelled from the spec: applying a queued `deleteRange`
transformation — the buffer with the text between the two offsets
removed (Text Buffer `replace(range, "")`). -/
def applyDeleteRange (buffer : Buffer) (start stop : Position) : Buffer :=
  splitLines ((joinLines buffer).take (offsetAt buffer start)
    ++ (joinLines buffer).drop (offsetAt buffer stop))

/-- The final-newline slice of `DeleteOperator.delete` (operator file
lines 249–256): drop a trailing `\r\n`, else a trailing `\n`. Stated via
the last characters, which is what the source's `endsWith` tests
check. -/
def stripFinalEOL (t : List Char) : List Char :=
  if t.getLast? = some '\n' then
    if t.dropLast.getLast? = some '\r' then t.dropLast.dropLast else t.dropLast
  else t

/-! ### Operators (`src/unnamed/part_000`) -/

/-- The linewise-normalized, one-extended end position of
`DeleteOperator.delete` (operator file lines 212–217): in line-wise mode
the end first moves to its line's end, then one character is added —
"deletes from the position of start to 1 past the position of end". -/
def DeleteOperator.extendedEnd (buffer : Buffer) (stop : Position)
    (registerMode : RegisterMode) : Position :=
  let e := if registerMode = .LineWise then stop.getLineEnd buffer else stop
  ⟨e.line, e.character + 1⟩

/-- What `DeleteOperator.delete` (operator file lines 204–288) computes:
the text put into the register, the `deleteRange` transformation's range,
and the resulting cursor position. (The `diff` cursor-adjustment metadata
and the `Register.put`/report side effects are not modelled; the
source's Visual-mode `EarlierOf` assignment to `resultingPosition` is
unconditionally overwritten two statements later and has no effect.) -/
structure DeleteResult where
  registerText : List Char
  rangeStart : Position
  rangeStop : Position
  resultingPosition : Position
deriving DecidableEq, Repr

/-- `DeleteOperator.delete` (operator file lines 204–288). -/
def DeleteOperator.delete (buffer : Buffer) (start stop : Position)
    (currentMode : ModeName) (registerMode : RegisterMode) : DeleteResult :=
  let start := if registerMode = .LineWise then start.getLineBegin else start
  let e := DeleteOperator.extendedEnd buffer stop registerMode
  let isOnLastLine := e.line = lineCount buffer - 1
  -- a character position 1 past the end of the line selects the line's
  -- newline; not in visual block mode (lines 225–229)
  let e :=
    if currentMode ≠ .VisualBlock ∧ e.character = lineLen buffer e.line + 1 then
      e.getDown buffer 0
    else e
  let text := getText buffer start e
  -- deleting linewise to the final line deletes the newline of the
  -- second-to-last line instead; the register text was taken first
  -- (lines 231–247)
  let start :=
    if isOnLastLine ∧ start.line ≠ 0 ∧ registerMode = .LineWise then
      (start.getPreviousLineBegin).getLineEnd buffer
    else start
  let text := if registerMode = .LineWise then stripFinalEOL text else text
  let resultingPosition :=
    if lineLen buffer start.line < start.character then start.getLeft else start
  let resultingPosition :=
    if registerMode = .LineWise then resultingPosition.getLineBegin else resultingPosition
  ⟨text, start, e, resultingPosition⟩

/-- `BaseOperator.runRepeat` (operator file lines 173–180): the doubled
operator runs line-wise from the beginning of the cursor's line to the
end of the line `count − 1` lines below. Returns the register mode it
forces and the (start, stop) it passes to `run`. -/
def BaseOperator.runRepeat (buffer : Buffer) (position : Position) (count : Nat) :
    RegisterMode × Position × Position :=
  (.LineWise, position.getLineBegin,
    (position.getDownByCount buffer (count - 1)).getLineEnd buffer)

/-- The operator classes registered in the operator file, in source
order. -/
inductive OperatorKind where
  | DeleteOperator
  | DeleteOperatorVisual
  | YankOperator
  | ShiftYankOperatorVisual
  | DeleteOperatorXVisual
  | ChangeOperatorSVisual
  | FormatOperator
  | UpperCaseOperator
  | UpperCaseWithMotion
  | UpperCaseVisualBlockOperator
  | LowerCaseOperator
  | LowerCaseWithMotion
  | LowerCaseVisualBlockOperator
  | IndentOperator
  | IndentOperatorInVisualModesIsAWeirdSpecialCase
  | OutdentOperator
  | OutdentOperatorInVisualModesIsAWeirdSpecialCase
  | ChangeOperator
  | YankVisualBlockMode
  | ToggleCaseOperator
  | ToggleCaseVisualBlockOperator
  | ToggleCaseWithMotion
  | CommentOperator
  | CommentBlockOperator
  | ActionVisualReflowParagraph
deriving DecidableEq, Repr

/-- The constructor identity of a recorded action, as
`doesRepeatedOperatorApply` compares it (`x instanceof CommandNumber`,
`prevAction.constructor === this.constructor`). -/
inductive ActionCtor where
  | operator (k : OperatorKind)
  | commandNumber
  | other (id : Nat)
deriving DecidableEq, Repr

/-- An entry of `recordedState.actionsRun`: which action ran and the keys
it consumed. -/
structure ActionRecord where
  ctor : ActionCtor
  keysPressed : List Key
deriving DecidableEq, Repr

/-- `BaseOperator.doesRepeatedOperatorApply` (operator file lines
149–164): the doubled-key operator form applies when the last non-count
action run is the very same operator class and the key pressed equals
that action's last key. -/
def BaseOperator.doesRepeatedOperatorApply (isOperator : Bool) (opKind : OperatorKind)
    (modes : List ModeName) (currentMode : ModeName)
    (actionsRun : List ActionRecord) (keysPressed : List Key) : Bool :=
  let nonCountActions := actionsRun.filter (fun x => !(x.ctor == ActionCtor.commandNumber))
  match nonCountActions.getLast? with
  | none => false
  | some prevAction =>
    isOperator
      && keysPressed.length == 1
      && modes.contains currentMode
      && prevAction.ctor == ActionCtor.operator opKind
      && compareKeyRow
          (prevAction.keysPressed.drop (prevAction.keysPressed.length - 1)) keysPressed

/-- The five-line example buffer of the claim. -/
def buffer5 : Buffer :=
  ["one".toList, "two".toList, "three".toList, "four".toList, "five".toList]

/-- The range `runRepeat` computes for `3dd` at line 0 of `buffer5`. -/
def c2rr : RegisterMode × Position × Position :=
  BaseOperator.runRepeat buffer5 ⟨0, 0⟩ 3

/-- The delete the doubled form `3dd` performs on `buffer5`. -/
def c2del : DeleteResult :=
  DeleteOperator.delete buffer5 c2rr.2.1 c2rr.2.2 .Normal c2rr.1

/-- C2: the doubled operator key with no intervening motion is detected
by `doesRepeatedOperatorApply`; `runRepeat` executes it line-wise from
the beginning of the cursor's line to the end of the line `count − 1`
lines below; and on `["one","two","three","four","five"]` with the
cursor on line 0, `3dd` leaves `["four","five"]` with the cursor at
(0, 0). -/
theorem c2_doubled_operator_linewise (kk : OperatorKind) (modes : List ModeName)
    (mode : ModeName) (actionsRun : List ActionRecord) (pkeys : List Key) (key : Key)
    (buffer : Buffer) (pos : Position) (count : Nat)
    (hmode : modes.contains mode = true)
    (hlast : (actionsRun.filter
        (fun x => !(x.ctor == ActionCtor.commandNumber))).getLast?
          = some ⟨.operator kk, pkeys⟩)
    (hkey : compareKeyRow (pkeys.drop (pkeys.length - 1)) [key] = true) :
    BaseOperator.doesRepeatedOperatorApply true kk modes mode actionsRun [key] = true
    ∧ BaseOperator.runRepeat buffer pos count
        = (.LineWise, ⟨pos.line, 0⟩,
            ⟨min (lineCount buffer - 1) (pos.line + (count - 1)),
             lineLen buffer (min (lineCount buffer - 1) (pos.line + (count - 1)))⟩)
    ∧ (c2rr.1 = .LineWise
       ∧ applyDeleteRange buffer5 c2del.rangeStart c2del.rangeStop
           = ["four".toList, "five".toList]
       ∧ c2del.resultingPosition = ⟨0, 0⟩
       ∧ c2del.registerText = "one\ntwo\nthree".toList) := by
  refine ⟨?_, rfl, by decide⟩
  unfold BaseOperator.doesRepeatedOperatorApply
  simp only [hlast]
  simp [hmode, hkey]
  simpa using hmode

/-- Witness for C2: the recorded state after one `d` in Normal mode with
the second `d` pressed. -/
theorem c2_doubled_operator_linewise_witness :
    BaseOperator.doesRepeatedOperatorApply true .DeleteOperator
        [.Normal, .Visual, .VisualLine] .Normal
        [⟨.operator .DeleteOperator, ["d"]⟩] ["d"] = true
    ∧ BaseOperator.runRepeat buffer5 ⟨1, 2⟩ 2
        = (.LineWise, ⟨1, 0⟩,
            ⟨min (lineCount buffer5 - 1) (1 + (2 - 1)),
             lineLen buffer5 (min (lineCount buffer5 - 1) (1 + (2 - 1)))⟩)
    ∧ (c2rr.1 = .LineWise
       ∧ applyDeleteRange buffer5 c2del.rangeStart c2del.rangeStop
           = ["four".toList, "five".toList]
       ∧ c2del.resultingPosition = ⟨0, 0⟩
       ∧ c2del.registerText = "one\ntwo\nthree".toList) :=
  c2_doubled_operator_linewise .DeleteOperator [.Normal, .Visual, .VisualLine] .Normal
    [⟨.operator .DeleteOperator, ["d"]⟩] ["d"] "d" buffer5 ⟨1, 2⟩ 2
    (by decide) (by decide) (by decide)

/-! #### Text lemmas for C3/C4 -/

theorem joinLines_cons (l : Line) (rest : Buffer) (h : rest ≠ []) :
    joinLines (l :: rest) = l ++ '\n' :: joinLines rest := by
  cases rest with
  | nil => exact absurd rfl h
  | cons b bs => rfl

theorem lineStartOffset_zero (buffer : Buffer) : lineStartOffset buffer 0 = 0 := by
  simp [lineStartOffset]

theorem lineStartOffset_cons (l : Line) (rest : Buffer) (k : Nat) :
    lineStartOffset (l :: rest) (k + 1) = (l.length + 1) + lineStartOffset rest k := by
  simp [lineStartOffset, List.take_succ_cons]

theorem lineLen_cons (l : Line) (rest : Buffer) (k : Nat) :
    lineLen (l :: rest) (k + 1) = lineLen rest k := by
  simp [lineLen, lineAt]

theorem joinLines_length_eq :
    ∀ (buffer : Buffer), buffer ≠ [] →
      (joinLines buffer).length
        = lineStartOffset buffer (buffer.length - 1) + lineLen buffer (buffer.length - 1)
  | [], h => absurd rfl h
  | [l], _ => by simp [joinLines, lineStartOffset, lineLen, lineAt]
  | l :: l2 :: ls, _ => by
    have ih := joinLines_length_eq (l2 :: ls) (by simp)
    rw [joinLines_cons l (l2 :: ls) (by simp)]
    have hidx : (l2 :: ls).length - 1 = ls.length := by simp
    rw [hidx] at ih
    have hlen : (l :: l2 :: ls).length - 1 = ls.length + 1 := by simp
    rw [hlen, lineStartOffset_cons, lineLen_cons]
    simp only [List.length_append, List.length_cons]
    omega

theorem joinLines_drop :
    ∀ (k : Nat) (buffer : Buffer), k < buffer.length →
      (joinLines buffer).drop (lineStartOffset buffer k) = joinLines (buffer.drop k) := by
  intro k
  induction k with
  | zero => intro buffer _; simp [lineStartOffset]
  | succ k ih =>
    intro buffer hk
    cases buffer with
    | nil => simp at hk
    | cons l rest =>
      have hrest : k < rest.length := by
        simp only [List.length_cons] at hk
        omega
      have hrne : rest ≠ [] := by
        cases rest
        · simp at hrest
        · simp
      rw [joinLines_cons l rest hrne, lineStartOffset_cons]
      have hsplit : l ++ '\n' :: joinLines rest = (l ++ ['\n']) ++ joinLines rest := by
        simp
      have hlen1 : l.length + 1 = (l ++ ['\n']).length := by simp
      rw [hsplit, hlen1]
      have hdrop : ((l ++ ['\n']) ++ joinLines rest).drop
          ((l ++ ['\n']).length + lineStartOffset rest k)
            = (joinLines rest).drop (lineStartOffset rest k) := by
        rw [List.drop_append]
      rw [hdrop, ih rest hrest]
      simp

theorem getLast?_drop_of_lt {α : Type} :
    ∀ (k : Nat) (l : List α), k < l.length → (l.drop k).getLast? = l.getLast? := by
  intro k
  induction k with
  | zero => intro l _; rfl
  | succ k ih =>
    intro l hk
    cases l with
    | nil => simp at hk
    | cons a rest =>
      have hrest : k < rest.length := by
        simp only [List.length_cons] at hk
        omega
      have h1 : (a :: rest).drop (k + 1) = rest.drop k := rfl
      rw [h1, ih rest hrest]
      cases rest with
      | nil => simp at hrest
      | cons b bs => exact List.getLast?_cons_cons.symm

theorem mem_of_getLast?_some {α : Type} {l : List α} {x : α}
    (h : l.getLast? = some x) : x ∈ l := by
  have hne : l ≠ [] := by
    intro e
    subst e
    simp at h
  have h2 := List.getLast?_eq_getLast l hne
  rw [h2, Option.some.injEq] at h
  exact h ▸ List.getLast_mem hne

theorem joinLines_getLast? :
    ∀ (buffer : Buffer) (L : Line), buffer.getLast? = some L → L ≠ [] →
      (joinLines buffer).getLast? = L.getLast?
  | [], L, h, _ => by simp at h
  | [l], L, h, _ => by
    simp only [List.getLast?_singleton, Option.some.injEq] at h
    subst h
    rfl
  | l :: l2 :: ls, L, h, hL => by
    have h2 : (l2 :: ls).getLast? = some L := by
      rw [← h]
      exact List.getLast?_cons_cons.symm
    have ih := joinLines_getLast? (l2 :: ls) L h2 hL
    have hjne : joinLines (l2 :: ls) ≠ [] := by
      intro e
      rw [e] at ih
      have : L.getLast? = none := ih.symm
      cases L with
      | nil => exact absurd rfl hL
      | cons a as => simp [List.getLast?_eq_getLast] at this
    rw [joinLines_cons l (l2 :: ls) (by simp)]
    have happ : (l ++ '\n' :: joinLines (l2 :: ls)).getLast?
        = ('\n' :: joinLines (l2 :: ls)).getLast? :=
      List.getLast?_append_of_ne_nil _ (by simp)
    rw [happ]
    cases hj : joinLines (l2 :: ls) with
    | nil => exact absurd hj hjne
    | cons c cs =>
      rw [hj] at ih
      rw [List.getLast?_cons_cons]
      exact ih

theorem stripFinalEOL_id {t : List Char} (h : t.getLast? ≠ some '\n') :
    stripFinalEOL t = t := by
  unfold stripFinalEOL
  rw [if_neg h]

/-- C3: a line-wise delete whose range covers the last line of a
multi-line document (the deleted lines starting below line 0) starts its
deleted span at the end of the preceding line — removing that line's
newline instead of a nonexistent trailing one — while the register gets
exactly the requested lines' text joined by newlines, with no trailing
end-of-line. (LF document model: lines hold no newline characters and
the last line is nonempty.) -/
theorem c3_linewise_delete_of_last_line (buffer : Buffer) (start stop : Position)
    (mode : ModeName)
    (hbne : buffer ≠ [])
    (hend : stop.line = lineCount buffer - 1)
    (hs0 : start.line ≠ 0)
    (hse : start.line ≤ stop.line)
    (hnl : ∀ l ∈ buffer, '\n' ∉ l)
    (hlastne : buffer.getLast? ≠ some ([] : Line)) :
    (DeleteOperator.delete buffer start stop mode .LineWise).rangeStart
        = ⟨start.line - 1, lineLen buffer (start.line - 1)⟩
    ∧ (DeleteOperator.delete buffer start stop mode .LineWise).registerText
        = joinLines (buffer.drop start.line) := by
  have hn : 0 < lineCount buffer := List.length_pos.mpr hbne
  have hkn : start.line < lineCount buffer := by omega
  refine ⟨?_, ?_⟩
  · unfold DeleteOperator.delete DeleteOperator.extendedEnd
    dsimp only
    simp only [if_pos rfl, if_true]
    unfold Position.getLineEnd Position.getLineBegin Position.getPreviousLineBegin
    dsimp only
    rw [if_pos ⟨hend, hs0, trivial⟩]
    rw [if_neg hs0]
  · unfold DeleteOperator.delete DeleteOperator.extendedEnd
    dsimp only
    simp only [if_pos rfl, if_true]
    unfold Position.getLineEnd Position.getLineBegin Position.getDown
    dsimp only
    have hgdn : ¬ (stop.line + 1 < lineCount buffer) := by omega
    rw [if_neg hgdn, ite_self]
    have e2 : offsetAt buffer ⟨stop.line, lineLen buffer stop.line + 1⟩
        = (joinLines buffer).length := by
      unfold offsetAt
      dsimp only
      have h1 : min stop.line (lineCount buffer - 1) = stop.line := by omega
      rw [h1]
      have h2 : min (lineLen buffer stop.line + 1) (lineLen buffer stop.line)
          = lineLen buffer stop.line := by omega
      rw [h2]
      rw [joinLines_length_eq buffer hbne]
      have h3 : stop.line = buffer.length - 1 := hend
      rw [h3]
    have e1 : offsetAt buffer ⟨start.line, 0⟩ = lineStartOffset buffer start.line := by
      unfold offsetAt
      dsimp only
      have h1 : min start.line (lineCount buffer - 1) = start.line := by omega
      rw [h1]
      simp
    unfold getText
    rw [e1, e2, List.take_length]
    rw [joinLines_drop start.line buffer hkn]
    have hlast2 : (buffer.drop start.line).getLast? = buffer.getLast? :=
      getLast?_drop_of_lt start.line buffer hkn
    have hgl := List.getLast?_eq_getLast buffer hbne
    have hLne : buffer.getLast hbne ≠ [] := by
      intro e
      apply hlastne
      rw [hgl, e]
    have hjl : (joinLines (buffer.drop start.line)).getLast?
        = (buffer.getLast hbne).getLast? :=
      joinLines_getLast? _ _ (by rw [hlast2, hgl]) hLne
    have hnotnl : '\n' ∉ buffer.getLast hbne := hnl _ (List.getLast_mem hbne)
    apply stripFinalEOL_id
    rw [hjl]
    cases hc : (buffer.getLast hbne).getLast? with
    | none => simp
    | some c =>
      have hcm : c ∈ buffer.getLast hbne := mem_of_getLast?_some hc
      intro he
      rw [Option.some.injEq] at he
      exact hnotnl (he ▸ hcm)

/-- The three-line buffer of the C3 witness. -/
def c3buf : Buffer := ["ab".toList, "cd".toList, "ef".toList]

/-- Witness for C3: `2dd`-style linewise delete of lines 1–2 (the last
line) of `["ab","cd","ef"]` — the span starts at (0, 2), the end of line
0, and the register gets exactly `"cd\nef"`. -/
theorem c3_linewise_delete_of_last_line_witness :
    (DeleteOperator.delete c3buf ⟨1, 0⟩ ⟨2, 1⟩ .Normal .LineWise).rangeStart = ⟨0, 2⟩
    ∧ (DeleteOperator.delete c3buf ⟨1, 0⟩ ⟨2, 1⟩ .Normal .LineWise).registerText
        = "cd\nef".toList := by
  exact c3_linewise_delete_of_last_line c3buf ⟨1, 0⟩ ⟨2, 1⟩ .Normal
    (by decide) (by decide) (by decide) (by decide) (by decide) (by decide)

/-- C4: a delete whose end, after the operator's one-character extension,
sits one past the last character of a line with a line below it, has its
range extended to the start of the next line (deleting the newline as
well) — except in VisualBlock mode, where the range is left at the
extended end and the newline is kept. -/
theorem c4_delete_one_past_eol_takes_newline (buffer : Buffer) (start stop : Position)
    (mode : ModeName) (rm : RegisterMode)
    (hpe : (DeleteOperator.extendedEnd buffer stop rm).character
        = lineLen buffer (DeleteOperator.extendedEnd buffer stop rm).line + 1)
    (hnext : (DeleteOperator.extendedEnd buffer stop rm).line + 1 < lineCount buffer) :
    (mode ≠ .VisualBlock →
      (DeleteOperator.delete buffer start stop mode rm).rangeStop
        = ⟨(DeleteOperator.extendedEnd buffer stop rm).line + 1, 0⟩)
    ∧ (mode = .VisualBlock →
      (DeleteOperator.delete buffer start stop mode rm).rangeStop
        = DeleteOperator.extendedEnd buffer stop rm) := by
  constructor
  · intro hm
    unfold DeleteOperator.delete
    dsimp only
    rw [if_pos ⟨hm, hpe⟩]
    unfold Position.getDown
    rw [if_pos hnext]
    rw [Nat.min_zero]
  · intro hm
    unfold DeleteOperator.delete
    dsimp only
    rw [if_neg (by simp [hm])]

/-- Witness for C4: on `["ab","cd"]`, a character-wise delete ending at
(0, 2) — one past the line — reaches (1, 0) in Normal mode and stays at
the extended end (0, 3) in VisualBlock mode. -/
theorem c4_delete_one_past_eol_takes_newline_witness :
    (DeleteOperator.delete ["ab".toList, "cd".toList] ⟨0, 0⟩ ⟨0, 2⟩ .Normal
        .CharacterWise).rangeStop = ⟨1, 0⟩
    ∧ (DeleteOperator.delete ["ab".toList, "cd".toList] ⟨0, 0⟩ ⟨0, 2⟩ .VisualBlock
        .CharacterWise).rangeStop = ⟨0, 3⟩ := by
  exact ⟨(c4_delete_one_past_eol_takes_newline ["ab".toList, "cd".toList] ⟨0, 0⟩ ⟨0, 2⟩
      .Normal .CharacterWise (by decide) (by decide)).1 (by decide),
    (c4_delete_one_past_eol_takes_newline ["ab".toList, "cd".toList] ⟨0, 0⟩ ⟨0, 2⟩
      .VisualBlock .CharacterWise (by decide) (by decide)).2 rfl⟩

/-! #### Final modes of the operators' `run` methods (C6) -/

/-- `DeleteOperator.run` (operator file lines 290–314) ends with
`setCurrentMode(Normal)`. -/
def DeleteOperator.runFinalMode : ModeName := .Normal

/-- `YankOperator.run` (operator file lines 337–402): with an active
surround request it returns early in `SurroundInputMode` (lines 340–347,
the hack making Surround's `ys` with a motion work); otherwise it ends in
Normal. -/
def YankOperator.runFinalMode (surroundActive : Bool) : ModeName :=
  if surroundActive then .SurroundInputMode else .Normal

/-- `DeleteOperatorVisual.run` delegates to `DeleteOperator.run`. -/
def DeleteOperatorVisual.runFinalMode : ModeName := DeleteOperator.runFinalMode

/-- `ShiftYankOperatorVisual.run` delegates to `YankOperator.run`. -/
def ShiftYankOperatorVisual.runFinalMode (surroundActive : Bool) : ModeName :=
  YankOperator.runFinalMode surroundActive

/-- `DeleteOperatorXVisual.run` delegates to `DeleteOperator.run`. -/
def DeleteOperatorXVisual.runFinalMode : ModeName := DeleteOperator.runFinalMode

/-- `ChangeOperator.run` (operator file lines 669–699) delegates to
Yank/Delete but ends with `setCurrentMode(Insert)` unconditionally. -/
def ChangeOperator.runFinalMode (surroundActive : Bool) : ModeName := .Insert

/-- `ChangeOperatorSVisual.run` delegates to `ChangeOperator.run`. -/
def ChangeOperatorSVisual.runFinalMode (surroundActive : Bool) : ModeName :=
  ChangeOperator.runFinalMode surroundActive

/-- The mode each operator's `run` leaves the editor in, as a function of
whether a surround request is active; every case not listed below ends
with `setCurrentMode(Normal)` in the source. -/
def operatorFinalMode : OperatorKind → Bool → ModeName
  | .DeleteOperator, _ => DeleteOperator.runFinalMode
  | .DeleteOperatorVisual, _ => DeleteOperatorVisual.runFinalMode
  | .YankOperator, s => YankOperator.runFinalMode s
  | .ShiftYankOperatorVisual, s => ShiftYankOperatorVisual.runFinalMode s
  | .DeleteOperatorXVisual, _ => DeleteOperatorXVisual.runFinalMode
  | .ChangeOperatorSVisual, s => ChangeOperatorSVisual.runFinalMode s
  | .ChangeOperator, s => ChangeOperator.runFinalMode s
  | _, _ => .Normal

/-- The change-class operators: `c` and its visual-mode variant `s`. -/
def isChangeClass : OperatorKind → Bool
  | .ChangeOperator => true
  | .ChangeOperatorSVisual => true
  | _ => false

/-- The operators routed through `YankOperator.run` and its surround
early-return. -/
def routesThroughYank : OperatorKind → Bool
  | .YankOperator => true
  | .ShiftYankOperatorVisual => true
  | _ => false

/-- C6 counterexample: `YankOperator.run` with an active surround request
completes in `SurroundInputMode` — a non-change-class operator whose
completed run does not leave the editor in Normal mode. -/
theorem c6_yank_surround_counterexample :
    operatorFinalMode .YankOperator true = .SurroundInputMode
    ∧ isChangeClass .YankOperator = false
    ∧ ModeName.SurroundInputMode ≠ ModeName.Normal := by
  decide

/-- C6 (amended): every operator's completed run leaves the editor in
Normal mode, except the change-class operators (Insert) and the
yank-class operators completing an active surround request
(SurroundInputMode). -/
theorem c6_operator_final_modes (k : OperatorKind) (surroundActive : Bool) :
    operatorFinalMode k surroundActive
      = if isChangeClass k then .Insert
        else if routesThroughYank k && surroundActive then .SurroundInputMode
        else .Normal := by
  cases k <;> cases surroundActive <;> rfl

/-! ### EasyMotion overlay
(`src/src/actions/plugins/easymotion/easymotion.cmd.ts`) -/

/-- An `EasyMotion.Match`: a found position and the matched text. -/
structure EMMatch where
  position : Position
  text : List Char
deriving DecidableEq, Repr

/-- Modelled from the spec: an EasyMotion marker — the key sequence
labelling a jump target and that target's position. -/
structure Marker where
  name : List Char
  position : Position
deriving DecidableEq, Repr

/-- Modelled from the spec: `EasyMotion.findMarkers(nail)` — the markers
whose name begins with the accumulated prefix. -/
def findMarkers (nail : List Char) (markers : List Marker) : List Marker :=
  markers.filter (fun m => nail.isPrefixOf m.name)

/-- The per-document EasyMotion state: the mode to return to, the
accumulated depth keys, and the displayed markers. -/
structure EasyMotionState where
  previousMode : ModeName
  accumulation : List Char
  markers : List Marker
deriving DecidableEq, Repr

/-- The slice of `VimState` the overlay commands read and write. -/
structure EMVimState where
  currentMode : ModeName
  cursorPosition : Position
  cursorStartPosition : Position
  lastVisualSelectionStart : Position
  lastVisualSelectionEnd : Position
  easyMotion : EasyMotionState
deriving DecidableEq, Repr

/-- The marker loop of `BaseEasyMotionCommand.processMarkers`
(easymotion.cmd.ts lines 22–40): matches at the cursor position are
skipped without consuming an index; `generateMarker` (`gen`, a parameter
standing for the repository's `EasyMotion.generateMarker`) may decline to
produce a marker but the index advances regardless. -/
def processMarkersGo (gen : Nat → Nat → Position → Position → Option Marker)
    (getMatchPos : EMMatch → Position) (total : Nat) (position : Position) :
    List EMMatch → Nat → List Marker
  | [], _ => []
  | m :: rest, index =>
    if m.position = position then processMarkersGo gen getMatchPos total position rest index
    else
      match gen index total position (getMatchPos m) with
      | some marker => marker :: processMarkersGo gen getMatchPos total position rest (index + 1)
      | none => processMarkersGo gen getMatchPos total position rest (index + 1)

/-- `BaseEasyMotionCommand.processMarkers` (easymotion.cmd.ts lines
22–40). -/
def processMarkers (gen : Nat → Nat → Position → Position → Option Marker)
    (getMatchPos : EMMatch → Position) (ms : List EMMatch) (position : Position) :
    List Marker :=
  processMarkersGo gen getMatchPos ms.length position ms 0

/-- `BaseEasyMotionCommand.exec` (easymotion.cmd.ts lines 42–67): with
the plugin configured off or zero matches the state is returned
unchanged; otherwise a fresh EasyMotion state remembering the current
mode is installed, the mode becomes `EasyMotionMode` and the markers are
processed. `ms` stands for the subclass's `getMatches` result. -/
def BaseEasyMotionCommand.exec (configEasymotion : Bool)
    (gen : Nat → Nat → Position → Position → Option Marker)
    (getMatchPos : EMMatch → Position) (ms : List EMMatch) (position : Position)
    (vim : EMVimState) : EMVimState :=
  if !configEasymotion then vim
  else if ms.length = 0 then vim
  else
    { vim with
        currentMode := .EasyMotionMode,
        easyMotion :=
          { previousMode := vim.currentMode,
            accumulation := [],
            markers := processMarkers gen getMatchPos ms position } }

/-- `MoveEasyMotion.exec` (easymotion.cmd.ts lines 271–317): append the
key to the accumulation; restore the last visual selection when the
previous mode was a visual one; then a unique remaining marker jumps to
it and restores the previous mode, zero remaining markers restore the
previous mode in place, and anything else stays in the overlay. -/
def MoveEasyMotion.exec (key : List Char) (vim : EMVimState) : EMVimState :=
  if key = [] then vim
  else
    let nail := vim.easyMotion.accumulation ++ key
    let vim := { vim with easyMotion := { vim.easyMotion with accumulation := nail } }
    let markers := findMarkers nail vim.easyMotion.markers
    let vim :=
      if vim.easyMotion.previousMode = .Visual ∨ vim.easyMotion.previousMode = .VisualLine
          ∨ vim.easyMotion.previousMode = .VisualBlock then
        { vim with
            cursorStartPosition := vim.lastVisualSelectionStart,
            cursorPosition := vim.lastVisualSelectionEnd }
      else vim
    match markers with
    | [marker] =>
      { vim with
          currentMode := vim.easyMotion.previousMode,
          cursorPosition := marker.position }
    | [] => { vim with currentMode := vim.easyMotion.previousMode }
    | _ => vim

/-- C7: the overlay is entered by a trigger command only when it finds at
least one match (zero matches leave the state unchanged, and entry
records the previous mode); once in the overlay, a key narrowing the
marker prefix to exactly one marker restores the previous mode and moves
the cursor to that marker, and a key narrowing it to zero markers
restores the previous mode without moving the cursor (previous mode not a
visual one, whose selection the source re-installs instead). -/
theorem c7_easymotion_overlay (configEasymotion : Bool)
    (gen : Nat → Nat → Position → Position → Option Marker)
    (getMatchPos : EMMatch → Position) (ms : List EMMatch) (position : Position)
    (vim vim2 : EMVimState) (key : List Char) (hkey : key ≠ []) :
    (ms = [] →
      BaseEasyMotionCommand.exec configEasymotion gen getMatchPos ms position vim
        = vim)
    ∧ (configEasymotion = true → ms ≠ [] →
        (BaseEasyMotionCommand.exec configEasymotion gen getMatchPos ms position
            vim).currentMode = .EasyMotionMode
        ∧ (BaseEasyMotionCommand.exec configEasymotion gen getMatchPos ms position
            vim).easyMotion.previousMode = vim.currentMode)
    ∧ (∀ m, findMarkers (vim2.easyMotion.accumulation ++ key) vim2.easyMotion.markers
          = [m] →
        (MoveEasyMotion.exec key vim2).currentMode = vim2.easyMotion.previousMode
        ∧ (MoveEasyMotion.exec key vim2).cursorPosition = m.position)
    ∧ (findMarkers (vim2.easyMotion.accumulation ++ key) vim2.easyMotion.markers = [] →
        (MoveEasyMotion.exec key vim2).currentMode = vim2.easyMotion.previousMode
        ∧ (vim2.easyMotion.previousMode ≠ .Visual →
            vim2.easyMotion.previousMode ≠ .VisualLine →
            vim2.easyMotion.previousMode ≠ .VisualBlock →
            (MoveEasyMotion.exec key vim2).cursorPosition = vim2.cursorPosition)) := by
  refine ⟨?_, ?_, ?_, ?_⟩
  · intro hm
    subst hm
    unfold BaseEasyMotionCommand.exec
    cases configEasymotion <;> simp
  · intro hc hm
    subst hc
    unfold BaseEasyMotionCommand.exec
    have hlen : ¬ ms.length = 0 := by
      cases ms
      · exact absurd rfl hm
      · simp
    simp [hlen]
  · intro m hm
    unfold MoveEasyMotion.exec
    rw [if_neg hkey]
    dsimp only
    rw [hm]
    by_cases hv : vim2.easyMotion.previousMode = .Visual
        ∨ vim2.easyMotion.previousMode = .VisualLine
        ∨ vim2.easyMotion.previousMode = .VisualBlock
    · rw [if_pos hv]
      exact ⟨rfl, rfl⟩
    · rw [if_neg hv]
      exact ⟨rfl, rfl⟩
  · intro hm
    unfold MoveEasyMotion.exec
    rw [if_neg hkey]
    dsimp only
    rw [hm]
    constructor
    · by_cases hv : vim2.easyMotion.previousMode = .Visual
          ∨ vim2.easyMotion.previousMode = .VisualLine
          ∨ vim2.easyMotion.previousMode = .VisualBlock
      · rw [if_pos hv]
      · rw [if_neg hv]
    · intro h1 h2 h3
      rw [if_neg (by simp [h1, h2, h3])]

/-- Witness for C7: a two-marker overlay entered from Normal mode; the
key `a` narrows to the unique marker `ab`, the key `z` narrows to none. -/
def c7vim : EMVimState :=
  { currentMode := .EasyMotionMode,
    cursorPosition := ⟨0, 0⟩,
    cursorStartPosition := ⟨0, 0⟩,
    lastVisualSelectionStart := ⟨0, 0⟩,
    lastVisualSelectionEnd := ⟨0, 0⟩,
    easyMotion :=
      { previousMode := .Normal,
        accumulation := [],
        markers := [⟨['a', 'b'], ⟨0, 3⟩⟩, ⟨['b'], ⟨0, 5⟩⟩] } }

theorem c7_easymotion_overlay_witness :
    ((BaseEasyMotionCommand.exec true (fun _ _ _ p => some ⟨['a'], p⟩)
        (fun m => m.position) [⟨⟨0, 3⟩, ['x']⟩] ⟨0, 0⟩ c7vim).currentMode
          = .EasyMotionMode
      ∧ (BaseEasyMotionCommand.exec true (fun _ _ _ p => some ⟨['a'], p⟩)
          (fun m => m.position) [⟨⟨0, 3⟩, ['x']⟩] ⟨0, 0⟩ c7vim).easyMotion.previousMode
            = c7vim.currentMode)
    ∧ ((MoveEasyMotion.exec ['a'] c7vim).currentMode = c7vim.easyMotion.previousMode
      ∧ (MoveEasyMotion.exec ['a'] c7vim).cursorPosition = Position.mk 0 3)
    ∧ ((MoveEasyMotion.exec ['z'] c7vim).currentMode = c7vim.easyMotion.previousMode
      ∧ (MoveEasyMotion.exec ['z'] c7vim).cursorPosition = c7vim.cursorPosition) :=
  ⟨(c7_easymotion_overlay true (fun _ _ _ p => some ⟨['a'], p⟩) (fun m => m.position)
      [⟨⟨0, 3⟩, ['x']⟩] ⟨0, 0⟩ c7vim c7vim ['a'] (by decide)).2.1 rfl (by decide),
   (c7_easymotion_overlay true (fun _ _ _ p => some ⟨['a'], p⟩) (fun m => m.position)
      [⟨⟨0, 3⟩, ['x']⟩] ⟨0, 0⟩ c7vim c7vim ['a'] (by decide)).2.2.1 ⟨['a', 'b'], ⟨0, 3⟩⟩
      (by decide),
   (fun h => ⟨h.1, h.2 (by decide) (by decide) (by decide)⟩)
     ((c7_easymotion_overlay true (fun _ _ _ p => some ⟨['a'], p⟩) (fun m => m.position)
        [⟨⟨0, 3⟩, ['x']⟩] ⟨0, 0⟩ c7vim c7vim ['z'] (by decide)).2.2.2 (by decide))⟩

/-! ### SearchState (`src/src/state/searchState.ts`) -/

/-- A match range of the search state: an ordered pair of positions,
`stop` exclusive (the source's `vscode.Range`). -/
structure SearchRange where
  start : Position
  stop : Position
deriving DecidableEq, Repr

/-- The record returned by `SearchState.getNextSearchMatchRange`
(`searchState.ts` lines 218–276): a range, a `match` flag and the index of
the match (−1 when there is none). -/
structure SearchMatchResult where
  start : Position
  stop : Position
  «match» : Bool
  index : Int
deriving DecidableEq, Repr

/-- The `for … of this._matchRanges.entries()` loop of the effective
forward direction: the first range whose start is strictly after the
given position (`searchState.ts` lines 232–241). -/
def searchScanForward (pos : Position) : List SearchRange → Nat → Option SearchMatchResult
  | [], _ => none
  | r :: rest, i =>
    if pos.lt r.start then some ⟨r.start, r.stop, true, (i : Int)⟩
    else searchScanForward pos rest (i + 1)

/-- The `for … of this._matchRanges.slice(0).reverse().entries()` loop of
the effective backward direction: scanning the reversed list, the first
range whose start is strictly before the given position, with the index
mapped back by `length − index − 1` (`searchState.ts` lines 253–265). -/
def searchScanBackward (pos : Position) (len : Nat) :
    List SearchRange → Nat → Option SearchMatchResult
  | [], _ => none
  | r :: rest, i =>
    if r.start.lt pos then some ⟨r.start, r.stop, true, (len : Int) - i - 1⟩
    else searchScanBackward pos len rest (i + 1)

/-- `SearchState.getNextSearchMatchRange` (`searchState.ts` lines
218–276). `matchRanges` is the document-ordered list `_matchRanges`;
`searchDirection` is the state's `_searchDirection` and `direction` the
argument, both ±1. An empty match list yields
`{start = end = startPosition, match = false, index = −1}`; otherwise the
scan in the effective direction runs, wrapping around to the first
(resp. last) match of the list. -/
def getNextSearchMatchRange (matchRanges : List SearchRange) (searchDirection : Int)
    (startPosition : Position) (direction : Int) : SearchMatchResult :=
  match matchRanges with
  | [] => ⟨startPosition, startPosition, false, -1⟩
  | r0 :: rest =>
    let effectiveDirection := direction * searchDirection
    if effectiveDirection = 1 then
      match searchScanForward startPosition (r0 :: rest) 0 with
      | some res => res
      | none => ⟨r0.start, r0.stop, true, 0⟩
    else
      let len := (r0 :: rest).length
      match searchScanBackward startPosition len ((r0 :: rest).reverse) 0 with
      | some res => res
      | none =>
        let rl := (r0 :: rest).getLast (by simp)
        ⟨rl.start, rl.stop, true, (len : Int) - 1⟩

/-! #### Lemmas for C10 -/

theorem searchScanForward_none {pos : Position} :
    ∀ {rs : List SearchRange} {i : Nat},
      (∀ r ∈ rs, pos.lt r.start = false) → searchScanForward pos rs i = none := by
  intro rs
  induction rs with
  | nil => intro i _; rfl
  | cons r rest ih =>
    intro i h
    have hr : pos.lt r.start = false := h r (by simp)
    simp only [searchScanForward, hr, Bool.false_eq_true, if_false]
    exact ih (fun r' hr' => h r' (by simp [hr']))

theorem searchScanBackward_none {pos : Position} {len : Nat} :
    ∀ {rs : List SearchRange} {i : Nat},
      (∀ r ∈ rs, r.start.lt pos = false) → searchScanBackward pos len rs i = none := by
  intro rs
  induction rs with
  | nil => intro i _; rfl
  | cons r rest ih =>
    intro i h
    have hr : r.start.lt pos = false := h r (by simp)
    simp only [searchScanBackward, hr, Bool.false_eq_true, if_false]
    exact ih (fun r' hr' => h r' (by simp [hr']))

theorem searchScanForward_match {pos : Position} :
    ∀ {rs : List SearchRange} {i : Nat} {res : SearchMatchResult},
      searchScanForward pos rs i = some res → res.match = true := by
  intro rs
  induction rs with
  | nil => intro i res h; simp [searchScanForward] at h
  | cons r rest ih =>
    intro i res h
    by_cases hr : pos.lt r.start = true
    · simp only [searchScanForward, if_pos hr, Option.some.injEq] at h
      subst h; rfl
    · simp only [searchScanForward, if_neg hr] at h
      exact ih h

theorem searchScanBackward_match {pos : Position} {len : Nat} :
    ∀ {rs : List SearchRange} {i : Nat} {res : SearchMatchResult},
      searchScanBackward pos len rs i = some res → res.match = true := by
  intro rs
  induction rs with
  | nil => intro i res h; simp [searchScanBackward] at h
  | cons r rest ih =>
    intro i res h
    by_cases hr : r.start.lt pos = true
    · simp only [searchScanBackward, if_pos hr, Option.some.injEq] at h
      subst h; rfl
    · simp only [searchScanBackward, if_neg hr] at h
      exact ih h

theorem Position.le_refl (p : Position) : p.le p = true := by
  simp [Position.le]

/-- In a start-sorted match list, the head's start is least. -/
theorem sorted_head_le {l : List SearchRange}
    (hs : l.Pairwise (fun a b => a.start.le b.start = true)) {hd : SearchRange}
    (hhd : l.head? = some hd) : ∀ r ∈ l, hd.start.le r.start = true := by
  cases l with
  | nil => simp at hhd
  | cons a rest =>
    simp only [List.head?_cons, Option.some.injEq] at hhd
    subst hhd
    intro r hr
    rcases List.mem_cons.mp hr with h | h
    · subst h; exact Position.le_refl _
    · exact (List.pairwise_cons.mp hs).1 r h

/-- In a start-sorted match list, the last element's start is greatest. -/
theorem sorted_le_getLast :
    ∀ {l : List SearchRange},
      l.Pairwise (fun a b => a.start.le b.start = true) → ∀ {la : SearchRange},
      l.getLast? = some la → ∀ r ∈ l, r.start.le la.start = true := by
  intro l
  induction l with
  | nil => intro _ la h; simp at h
  | cons a rest ih =>
    intro hs la hla r hr
    cases rest with
    | nil =>
      simp only [List.getLast?_singleton, Option.some.injEq] at hla
      subst hla
      rcases List.mem_singleton.mp hr with h
      subst h; exact Position.le_refl _
    | cons b rest' =>
      have hla' : (b :: rest').getLast? = some la := by
        rw [← hla]; rfl
      have hpair := List.pairwise_cons.mp hs
      have hne' : (b :: rest') ≠ [] := by simp
      have hmem : la ∈ b :: rest' := by
        have h2 := List.getLast?_eq_getLast (b :: rest') hne'
        rw [h2, Option.some.injEq] at hla'
        exact hla' ▸ List.getLast_mem hne'
      rcases List.mem_cons.mp hr with h | h
      · subst h
        exact hpair.1 la hmem
      · exact ih hpair.2 hla' r h

/-- C10: `SearchState.getNextSearchMatchRange` returns
`match = false`, `start = end = startPosition`, `index = −1` exactly when
the match-range list is empty; with at least one match it returns
`match = true`, and it wraps around: in the effective forward direction it
returns the first match of the document when no match starts strictly
after the given position, and in the effective backward direction the last
match of the document when no match starts strictly before it. -/
theorem c10_getNextSearchMatchRange (matchRanges : List SearchRange)
    (searchDirection direction : Int) (startPosition : Position)
    (hsorted : matchRanges.Pairwise (fun a b => a.start.le b.start = true)) :
    (matchRanges = [] →
      getNextSearchMatchRange matchRanges searchDirection startPosition direction =
        ⟨startPosition, startPosition, false, -1⟩)
    ∧ (matchRanges ≠ [] →
        (getNextSearchMatchRange matchRanges searchDirection startPosition direction).match
          = true)
    ∧ (direction * searchDirection = 1 →
        (∀ r ∈ matchRanges, startPosition.lt r.start = false) →
        ∀ hd, matchRanges.head? = some hd →
          getNextSearchMatchRange matchRanges searchDirection startPosition direction =
              ⟨hd.start, hd.stop, true, 0⟩
            ∧ ∀ r ∈ matchRanges, hd.start.le r.start = true)
    ∧ (direction * searchDirection = -1 →
        (∀ r ∈ matchRanges, r.start.lt startPosition = false) →
        ∀ la, matchRanges.getLast? = some la →
          getNextSearchMatchRange matchRanges searchDirection startPosition direction =
              ⟨la.start, la.stop, true, (matchRanges.length : Int) - 1⟩
            ∧ ∀ r ∈ matchRanges, r.start.le la.start = true) := by
  refine ⟨?_, ?_, ?_, ?_⟩
  · intro h; subst h; rfl
  · intro hne
    cases matchRanges with
    | nil => exact absurd rfl hne
    | cons r0 rest =>
      unfold getNextSearchMatchRange
      by_cases heff : direction * searchDirection = 1
      · simp only [heff, if_pos rfl]
        cases hscan : searchScanForward startPosition (r0 :: rest) 0 with
        | some res => simpa using searchScanForward_match hscan
        | none => simp
      · simp only [if_neg heff]
        cases hscan :
            searchScanBackward startPosition (r0 :: rest).length ((r0 :: rest).reverse) 0 with
        | some res => simpa [hscan] using searchScanBackward_match hscan
        | none => simp [hscan]
  · intro heff hnone hd hhd
    cases matchRanges with
    | nil => simp at hhd
    | cons r0 rest =>
      simp only [List.head?_cons, Option.some.injEq] at hhd
      subst hhd
      have hscan : searchScanForward startPosition (r0 :: rest) 0 = none :=
        searchScanForward_none hnone
      constructor
      · unfold getNextSearchMatchRange
        simp [heff, hscan]
      · exact sorted_head_le hsorted (by simp)
  · intro heff hnone la hla
    cases matchRanges with
    | nil => simp at hla
    | cons r0 rest =>
      have hscan :
          searchScanBackward startPosition (r0 :: rest).length ((r0 :: rest).reverse) 0
            = none := by
        refine searchScanBackward_none ?_
        intro r hr
        exact hnone r (List.mem_reverse.mp hr)
      have hne : (r0 :: rest) ≠ [] := by simp
      have hlast : (r0 :: rest).getLast hne = la := by
        have := List.getLast?_eq_getLast (r0 :: rest) hne
        rw [this] at hla
        exact (Option.some.injEq _ _).mp hla
      constructor
      · unfold getNextSearchMatchRange
        have hne1 : direction * searchDirection ≠ 1 := by
          rw [heff]; decide
        simp only [if_neg hne1, hscan, hlast]
      · exact sorted_le_getLast hsorted hla

/-- A concrete two-element, document-ordered match list. -/
def c10ranges : List SearchRange := [⟨⟨0, 1⟩, ⟨0, 2⟩⟩, ⟨⟨1, 0⟩, ⟨1, 2⟩⟩]

/-- Witness for C10 at concrete inputs: the empty case, the `match = true`
case, the forward wrap to the first match, and the backward wrap to the
last match. -/
theorem c10_getNextSearchMatchRange_witness :
    getNextSearchMatchRange [] 1 ⟨2, 0⟩ 1 = ⟨⟨2, 0⟩, ⟨2, 0⟩, false, -1⟩
    ∧ (getNextSearchMatchRange c10ranges 1 ⟨2, 0⟩ 1).match = true
    ∧ (getNextSearchMatchRange c10ranges 1 ⟨2, 0⟩ 1
          = ⟨(⟨⟨0, 1⟩, ⟨0, 2⟩⟩ : SearchRange).start, (⟨⟨0, 1⟩, ⟨0, 2⟩⟩ : SearchRange).stop,
              true, 0⟩
        ∧ ∀ r ∈ c10ranges, (⟨⟨0, 1⟩, ⟨0, 2⟩⟩ : SearchRange).start.le r.start = true)
    ∧ (getNextSearchMatchRange c10ranges 1 ⟨0, 0⟩ (-1)
          = ⟨(⟨⟨1, 0⟩, ⟨1, 2⟩⟩ : SearchRange).start, (⟨⟨1, 0⟩, ⟨1, 2⟩⟩ : SearchRange).stop,
              true, (c10ranges.length : Int) - 1⟩
        ∧ ∀ r ∈ c10ranges, r.start.le (⟨⟨1, 0⟩, ⟨1, 2⟩⟩ : SearchRange).start = true) :=
  ⟨(c10_getNextSearchMatchRange [] 1 1 ⟨2, 0⟩ (by decide)).1 rfl,
   (c10_getNextSearchMatchRange c10ranges 1 1 ⟨2, 0⟩ (by decide)).2.1 (by decide),
   (c10_getNextSearchMatchRange c10ranges 1 1 ⟨2, 0⟩ (by decide)).2.2.1 (by decide)
     (by decide) ⟨⟨0, 1⟩, ⟨0, 2⟩⟩ rfl,
   (c10_getNextSearchMatchRange c10ranges 1 (-1) ⟨0, 0⟩ (by decide)).2.2.2 (by decide)
     (by decide) ⟨⟨1, 0⟩, ⟨1, 2⟩⟩ (by decide)⟩

end VimSpec
